import Mathlib

/-!
Shallow embedding of the core audio capture-and-stream loop of
`src/waveform_mic-web-stream/waveform_mic-web-stream.ino`.

Modelling conventions:
* `int16_t` samples are `Int` (theorems that depend on the 16-bit range carry
  an explicit range hypothesis); the narrowing store in the IIR filter is
  modelled by `toInt16`.
* `float` quantities computed from integer samples are modelled in `ℚ`
  (the concrete computations on 16-bit samples relevant to the claims are
  exact; precision caveats are noted at each definition), and the result of
  `sqrt` lives in `ℝ`.
* C truncation of a floating value to an integer type rounds toward zero,
  modelled by `ratTrunc`.
* Division by zero in `ℚ` yields `0`; the C code divides by the block length
  only, which is the constant 512 in every call made by `loop`.
-/

/-- CALM_THRESHOLD (line 24 of the sketch). -/
def CALM_THRESHOLD : ℚ := 500

/-- NOISY_THRESHOLD (line 25). -/
def NOISY_THRESHOLD : ℚ := 5000

/-- BUFFER_SIZE (line 20): samples per block. -/
def BUFFER_SIZE : Nat := 512

/-- dataInterval (line 31): fixed inter-cycle delay in milliseconds. -/
def dataInterval : Nat := 30

/-- classifyEnvironment (lines 92-100): first-match decision table over the
feature set; the Calm test is evaluated before the Noisy test. -/
noncomputable def classifyEnvironment (rms lowEnergy highEnergy : ℝ) : String :=
  if rms < ((CALM_THRESHOLD : ℚ) : ℝ) ∨ lowEnergy > highEnergy * 2 then "Calm"
  else if rms > ((NOISY_THRESHOLD : ℚ) : ℝ) ∨ highEnergy > lowEnergy * 2 then "Noisy"
  else "Normal"

/-- Classifier decision table exactly as the spec words it (section 4.4),
to be compared with `classifyEnvironment` taken from the code. -/
noncomputable def classifyEnvironmentSpec (rms lowEnergy highEnergy : ℝ) : String :=
  if rms < 500 ∨ lowEnergy > 2 * highEnergy then "Calm"
  else if rms > 5000 ∨ highEnergy > 2 * lowEnergy then "Noisy"
  else "Normal"

/-- Body of the loop of calculateFrequencyDistribution (lines 76-85): `prev`
is `samples[i-1]`; each absolute first difference is added to the low
accumulator when `< 1000`, else to the high accumulator.  The additions are
exact in `float` only up to 2^24, which covers every block the claims quantify
over up to that total; the model uses exact rationals. -/
def freqDistAux (prev : Int) : List Int → ℚ × ℚ
  | [] => (0, 0)
  | s :: rest =>
    let derivative : ℚ := |((s : ℚ) - (prev : ℚ))|
    let acc := freqDistAux s rest
    if derivative < 1000 then (acc.1 + derivative, acc.2) else (acc.1, acc.2 + derivative)

/-- calculateFrequencyDistribution (lines 71-90): accumulate the adjacent
absolute differences into two banded sums, then divide both by the block
length.  Returns `(lowFreqEnergy, highFreqEnergy)`. -/
def calculateFrequencyDistribution (samples : List Int) : ℚ × ℚ :=
  match samples with
  | [] => (0, 0)
  | s0 :: rest =>
    let acc := freqDistAux s0 rest
    (acc.1 / ((s0 :: rest).length : ℚ), acc.2 / ((s0 :: rest).length : ℚ))

/-- Spec-side view (sections 4.3 and 8): the list of adjacent absolute first
differences `|B[i] - B[i-1]|` for `i ≥ 1`. -/
def adjAbsDiffs : List Int → List ℚ
  | [] => []
  | [_] => []
  | a :: b :: rest => |((b : ℚ) - (a : ℚ))| :: adjAbsDiffs (b :: rest)

/-- Spec-side view: the sum of all adjacent absolute first differences. -/
def sumAbsAdjacentDiffs (samples : List Int) : ℚ :=
  (adjAbsDiffs samples).sum

/-- calculatePeak (lines 62-69): running maximum of the absolute sample
values, starting from 0. -/
def calculatePeak (samples : List Int) : ℚ :=
  samples.foldl (fun (peak : ℚ) (s : Int) => if |(s : ℚ)| > peak then |(s : ℚ)| else peak) 0

/-- Accumulation loop of calculateRMS (lines 55-58).  The float accumulator
is modelled exactly in `ℚ`. -/
def sumSquares (samples : List Int) : ℚ :=
  samples.foldl (fun (sum : ℚ) (s : Int) => sum + (s : ℚ) * (s : ℚ)) 0

/-- calculateRMS (lines 54-60): square root of the mean square. -/
noncomputable def calculateRMS (samples : List Int) : ℝ :=
  Real.sqrt (((sumSquares samples / ((samples.length : ℚ))) : ℚ) : ℝ)

/-- C conversion of a floating value to an integer type: truncation toward
zero. -/
def ratTrunc (q : ℚ) : Int :=
  if 0 ≤ q then ⌊q⌋ else ⌈q⌉

/-- Narrowing store into an `int16_t` l-value: wrap into [-32768, 32767]. -/
def toInt16 (n : Int) : Int :=
  (n + 32768) % 65536 - 32768

/-- One step of the filter loop body (line 50):
`out[i] = (int16_t)(alpha * in[i] + (1.0f - alpha) * out[i-1])`.
For the call made by `loop` (`alpha = 0.25f`) on 16-bit samples the float
blend is exact (both products and the sum are multiples of 1/4 with magnitude
far below 2^24), so the rational blend models it exactly. -/
def iirStep (alpha : ℚ) (prev x : Int) : Int :=
  toInt16 (ratTrunc (alpha * (x : ℚ) + (1 - alpha) * (prev : ℚ)))

/-- Filter loop for indices `i ≥ 1` (lines 49-51); `prev` is `out[i-1]`. -/
def iirAux (alpha : ℚ) (prev : Int) : List Int → List Int
  | [] => []
  | x :: rest =>
    let o := iirStep alpha prev x
    o :: iirAux alpha o rest

/-- iirLowPassFilter (lines 47-52): `out[0] = in[0]`, then the recurrence. -/
def iirLowPassFilter (input : List Int) (alpha : ℚ) : List Int :=
  match input with
  | [] => []
  | x :: rest => x :: iirAux alpha x rest

/-- waveformLen (line 378): number of downsampled waveform points. -/
def waveformLen : Nat := 256

/-- Downsampling index (line 381): `idx = (i * BUFFER_SIZE) / waveformLen`. -/
def downsampleIdx (i : Nat) : Nat :=
  (i * BUFFER_SIZE) / waveformLen

/-- Downsampling loop (lines 377-383): `waveform[i] = filteredBuffer[idx]`. -/
def downsampleWaveform (filteredBuffer : List Int) : List Int :=
  (List.range waveformLen).map fun i => filteredBuffer.getD (downsampleIdx i) 0

/-- Effect of `memset(p + start, 0, k)` measured in whole samples: zero `k`
consecutive samples beginning at `start`. -/
def memsetZeroSamples (l : List Int) (start : Nat) : Nat → List Int
  | 0 => l
  | k + 1 => memsetZeroSamples (l.set start 0) (start + 1) k

/-- Block assembly in `loop` (lines 345-361) for a successful read that
returned `data` (so `bytesRead = 2 * data.length`):
`int16_t buffer[BUFFER_SIZE] = {0}` zero-initializes the block, `i2s_read`
overwrites its prefix with the samples read, and on a short read
`memset(buffer + bytesRead / 2, 0, BUFFER_SIZE - bytesRead / 2)` zeroes
`BUFFER_SIZE - bytesRead / 2` further bytes — i.e. `(BUFFER_SIZE - N) / 2`
whole samples from index `N` (when the count is odd the final byte lands in
the low half of one more sample, which is already zero, so the sample
granularity below is exact). -/
def assembleBlock (data : List Int) : List Int :=
  let buffer := data ++ List.replicate (BUFFER_SIZE - data.length) 0
  if data.length ≠ BUFFER_SIZE then
    memsetZeroSamples buffer data.length ((BUFFER_SIZE - data.length) / 2)
  else buffer

/-- Outcome of the `i2s_read` call (line 350): either `ESP_OK` together with
the samples placed into the buffer, or a non-OK error code. -/
inductive ReadResult where
  | ok (data : List Int)
  | err (code : Int)

/-- Global audio-analysis variables (lines 34-38). -/
structure Globals where
  currentRMS : ℝ
  currentPeak : ℚ
  lowFreqEnergy : ℚ
  highFreqEnergy : ℚ
  environment : String

/-- Initial values of the globals (lines 34-38). -/
noncomputable def initialGlobals : Globals :=
  ⟨0, 0, 0, 0, "Normal"⟩

/-- One outbound WebSocket frame: `sendTXT` of the structured record
(lines 386-401) or `sendBIN` of the raw filtered block (line 402). -/
inductive Emission where
  | text (rms : ℝ) (peak : ℚ) (lowEnergy highEnergy : ℚ)
      (environment : String) (waveform : List Int)
  | bin (payload : List Int)

/-- Per-cycle input: the read outcome and the `clientConnected` flag as the
cycle observes it (mutated only by the network layer between cycles). -/
structure CycleInput where
  read : ReadResult
  clientConnected : Bool

/-- FreeRTOS portMAX_DELAY: the all-ones 32-bit tick count, the sentinel
value for blocking indefinitely. -/
def portMAX_DELAY : Nat := 2 ^ 32 - 1

/-- Modelled from the spec and the call at line 350: the `ticks_to_wait`
argument `loop` passes to `i2s_read` (the numeric value of the FreeRTOS
constant is not in this repository's sources). -/
def i2sReadTicksToWait : Nat := portMAX_DELAY

/-- One iteration of `loop` (lines 341-409), given the read outcome and the
connection flag: on a read error the cycle is skipped (lines 351-356); on
success the block is assembled, filtered (line 366, `alpha = 0.25f`),
analysed (lines 372-375), downsampled (lines 377-383), and published only
when a client is connected (lines 398-406).  Returns the new globals, the
emitted frames in order, and the delay taken at the end of the path. -/
noncomputable def cycleStep (g : Globals) (inp : CycleInput) :
    Globals × List Emission × Nat :=
  match inp.read with
  | .err _ => (g, [], dataInterval)
  | .ok data =>
    let filteredBuffer := iirLowPassFilter (assembleBlock data) (1 / 4)
    let rms := calculateRMS filteredBuffer
    let peak := calculatePeak filteredBuffer
    let fd := calculateFrequencyDistribution filteredBuffer
    let env := classifyEnvironment rms (fd.1 : ℝ) (fd.2 : ℝ)
    let waveform := downsampleWaveform filteredBuffer
    let g' : Globals := ⟨rms, peak, fd.1, fd.2, env⟩
    let emissions :=
      if inp.clientConnected then
        [Emission.text rms peak fd.1 fd.2 env waveform, Emission.bin filteredBuffer]
      else []
    (g', emissions, dataInterval)

/-- Repeated iterations of `loop`: thread the globals, concatenate the
emitted frames. -/
noncomputable def runLoop (g : Globals) : List CycleInput → Globals × List Emission
  | [] => (g, [])
  | inp :: rest =>
    let step := cycleStep g inp
    let tail := runLoop step.1 rest
    (tail.1, step.2.1 ++ tail.2)

/-- C1: For every Feature Set (rms, lowEnergy, highEnergy), the classifier
returns Calm if rms < 500 or lowEnergy > 2*highEnergy, else Noisy if
rms > 5000 or highEnergy > 2*lowEnergy, else Normal; the Calm test is
evaluated strictly before the Noisy test, so any input satisfying both
conditions — in particular rms = 400 with highEnergy = 3*lowEnergy — is
labelled Calm. -/
theorem classifyEnvironment_first_match_wins :
    (∀ rms lowEnergy highEnergy : ℝ,
        classifyEnvironment rms lowEnergy highEnergy
          = classifyEnvironmentSpec rms lowEnergy highEnergy) ∧
    (∀ lowEnergy : ℝ,
        classifyEnvironment 400 lowEnergy (3 * lowEnergy) = "Calm") := by
  have hc : ((CALM_THRESHOLD : ℚ) : ℝ) = 500 := by norm_num [CALM_THRESHOLD]
  have hn : ((NOISY_THRESHOLD : ℚ) : ℝ) = 5000 := by norm_num [NOISY_THRESHOLD]
  constructor
  · intro rms le he
    unfold classifyEnvironment classifyEnvironmentSpec
    rw [hc, hn, mul_comm he 2, mul_comm le 2]
  · intro le
    have h : (400 : ℝ) < ((CALM_THRESHOLD : ℚ) : ℝ) ∨ le > 3 * le * 2 := by
      left
      rw [hc]
      norm_num
    unfold classifyEnvironment
    rw [if_pos h]

/-- C7: For every cycle whose acquisition call returns a non-OK status, the
cycle is skipped entirely: the globals are unchanged, nothing is emitted, the
fixed delay dataInterval = 30 is applied, and arbitrarily many consecutive
failures leave the loop running with the globals intact. -/
theorem read_error_skips_cycle :
    (∀ (g : Globals) (code : Int) (connected : Bool),
        cycleStep g ⟨ReadResult.err code, connected⟩ = (g, [], dataInterval)) ∧
    dataInterval = 30 ∧
    (∀ (g : Globals) (codes : List Int) (connected : Bool),
        runLoop g (codes.map fun c => ⟨ReadResult.err c, connected⟩) = (g, [])) := by
  refine ⟨fun g code connected => rfl, rfl, ?_⟩
  intro g codes connected
  induction codes with
  | nil => rfl
  | cons c rest ih => simp [runLoop, cycleStep, ih]

/-- C8 counterexample: the claim that the acquisition call is bounded by an
explicit finite timeout fails on the code: the ticks_to_wait argument passed
to i2s_read at line 350 is portMAX_DELAY, the FreeRTOS sentinel for blocking
indefinitely, not a finite bound. -/
theorem acquisition_timeout_is_portMAX_DELAY :
    ¬ i2sReadTicksToWait ≠ portMAX_DELAY := by
  decide

/-- C8 amended: the acquisition call is invoked with portMAX_DELAY (unbounded
wait, not a finite timeout); given any acquisition outcome, the rest of the
cycle is a total function that always ends in the fixed inter-cycle delay, so
a cycle completes whenever the acquisition source eventually responds. -/
theorem acquisition_unbounded_wait_amended :
    i2sReadTicksToWait = portMAX_DELAY ∧
    ∀ (g : Globals) (inp : CycleInput), (cycleStep g inp).2.2 = dataInterval := by
  refine ⟨rfl, ?_⟩
  intro g inp
  obtain ⟨read, connected⟩ := inp
  cases read <;> rfl

/-- C10: For every i < 256, the waveform downsampling index
(i * BUFFER_SIZE) / 256 equals 2*i and is strictly below BUFFER_SIZE = 512,
so the downsampler reads only in-bounds positions and waveform[i] is the
filtered block's sample at index 2*i. -/
theorem downsample_indices_inbounds (i : Nat) (h : i < waveformLen) :
    downsampleIdx i = 2 * i ∧ downsampleIdx i < BUFFER_SIZE ∧
    ∀ filteredBuffer : List Int,
      (downsampleWaveform filteredBuffer).getD i 0
        = filteredBuffer.getD (2 * i) 0 := by
  have hidx : downsampleIdx i = 2 * i := by
    unfold downsampleIdx BUFFER_SIZE waveformLen
    omega
  have hlt : downsampleIdx i < BUFFER_SIZE := by
    unfold BUFFER_SIZE
    rw [hidx]
    unfold waveformLen at h
    omega
  refine ⟨hidx, hlt, ?_⟩
  intro filteredBuffer
  have hi : i < (List.range waveformLen).length := by
    simpa using h
  have hi' : i < ((List.range waveformLen).map
      fun j => filteredBuffer.getD (downsampleIdx j) 0).length := by
    simpa using h
  unfold downsampleWaveform
  rw [List.getD_eq_getElem _ _ hi', List.getElem_map, List.getElem_range, hidx]

/-- C10 witness at i = 3. -/
theorem downsample_indices_inbounds_witness :
    downsampleIdx 3 = 2 * 3 ∧ downsampleIdx 3 < BUFFER_SIZE ∧
    (downsampleWaveform (List.replicate 512 (7 : Int))).getD 3 0
      = (List.replicate 512 (7 : Int)).getD (2 * 3) 0 := by
  obtain ⟨h1, h2, h3⟩ := downsample_indices_inbounds 3 (by decide)
  exact ⟨h1, h2, h3 _⟩

lemma freqDistAux_eq_filter_sums (l : List Int) (p : Int) :
    freqDistAux p l
      = (((adjAbsDiffs (p :: l)).filter (fun d => d < 1000)).sum,
         ((adjAbsDiffs (p :: l)).filter (fun d => ¬ d < 1000)).sum) := by
  induction l generalizing p with
  | nil => simp [freqDistAux, adjAbsDiffs]
  | cons b rest ih =>
    by_cases h : |((b : ℚ) - (p : ℚ))| < 1000
    · simp [freqDistAux, adjAbsDiffs, ih b, List.filter_cons, h, add_comm]
    · have h' : (1000 : ℚ) ≤ |((b : ℚ) - (p : ℚ))| := not_lt.1 h
      simp [freqDistAux, adjAbsDiffs, ih b, List.filter_cons, h, h', add_comm]

lemma filter_sum_partition (l : List ℚ) :
    (l.filter (fun d => d < 1000)).sum + (l.filter (fun d => ¬ d < 1000)).sum
      = l.sum := by
  induction l with
  | nil => simp
  | cons x rest ih =>
    by_cases h : x < 1000
    · simp [List.filter_cons, h, ← ih]
      ring
    · have h' : (1000 : ℚ) ≤ x := not_lt.1 h
      simp [List.filter_cons, h, h', ← ih]
      ring

/-- C3: For every block B of length N, the unnormalized accumulators
(lowEnergy * N and highEnergy * N) are exactly the sums of the adjacent
absolute first differences below 1000 and of those at least 1000 — each
difference contributes to exactly one accumulator — and their total equals
the sum of all adjacent absolute first differences of B. -/
theorem calculateFrequencyDistribution_partitions_diffs (B : List Int) :
    (calculateFrequencyDistribution B).1 * (B.length : ℚ)
        = ((adjAbsDiffs B).filter (fun d => d < 1000)).sum ∧
    (calculateFrequencyDistribution B).2 * (B.length : ℚ)
        = ((adjAbsDiffs B).filter (fun d => ¬ d < 1000)).sum ∧
    (calculateFrequencyDistribution B).1 * (B.length : ℚ)
        + (calculateFrequencyDistribution B).2 * (B.length : ℚ)
      = sumAbsAdjacentDiffs B := by
  match B with
  | [] => simp [calculateFrequencyDistribution, adjAbsDiffs, sumAbsAdjacentDiffs]
  | s0 :: rest =>
    have hN : (((s0 :: rest).length : ℚ)) ≠ 0 := by
      simp only [List.length_cons]
      push_cast
      positivity
    have h1 : (calculateFrequencyDistribution (s0 :: rest)).1 * (((s0 :: rest).length : ℚ))
        = ((adjAbsDiffs (s0 :: rest)).filter (fun d => d < 1000)).sum := by
      simp only [calculateFrequencyDistribution, freqDistAux_eq_filter_sums]
      exact div_mul_cancel₀ _ hN
    have h2 : (calculateFrequencyDistribution (s0 :: rest)).2 * (((s0 :: rest).length : ℚ))
        = ((adjAbsDiffs (s0 :: rest)).filter (fun d => ¬ d < 1000)).sum := by
      simp only [calculateFrequencyDistribution, freqDistAux_eq_filter_sums]
      exact div_mul_cancel₀ _ hN
    refine ⟨h1, h2, ?_⟩
    rw [h1, h2, sumAbsAdjacentDiffs, filter_sum_partition]

lemma foldl_add_init (l : List Int) (a : ℚ) :
    l.foldl (fun (sum : ℚ) (s : Int) => sum + (s : ℚ) * (s : ℚ)) a
      = a + (l.map fun s : Int => (s : ℚ) * (s : ℚ)).sum := by
  induction l generalizing a with
  | nil => simp
  | cons x xs ih => simp [ih, add_assoc]

lemma sumSquares_eq_map_sum (B : List Int) :
    sumSquares B = (B.map fun s : Int => (s : ℚ) * (s : ℚ)).sum := by
  unfold sumSquares
  simpa using foldl_add_init B 0

lemma sumSquares_nonneg (B : List Int) : 0 ≤ sumSquares B := by
  rw [sumSquares_eq_map_sum]
  apply List.sum_nonneg
  intro x hx
  obtain ⟨s, -, rfl⟩ := List.mem_map.1 hx
  exact mul_self_nonneg _

lemma sumSquares_eq_zero_iff (B : List Int) :
    sumSquares B = 0 ↔ ∀ x ∈ B, x = 0 := by
  induction B with
  | nil => simp [sumSquares]
  | cons x xs ih =>
    rw [sumSquares_eq_map_sum] at ih ⊢
    simp only [List.map_cons, List.sum_cons, List.mem_cons]
    have hx : (0 : ℚ) ≤ (x : ℚ) * (x : ℚ) := mul_self_nonneg _
    have hxs : (0 : ℚ) ≤ (xs.map fun s : Int => (s : ℚ) * (s : ℚ)).sum := by
      apply List.sum_nonneg
      intro y hy
      obtain ⟨s, -, rfl⟩ := List.mem_map.1 hy
      exact mul_self_nonneg _
    rw [add_eq_zero_iff_of_nonneg hx hxs, mul_self_eq_zero]
    constructor
    · rintro ⟨h1, h2⟩
      exact fun y hy => hy.elim (fun h => by exact_mod_cast h ▸ h1)
        (fun h => ih.1 h2 y h)
    · intro h
      refine ⟨by exact_mod_cast h x (Or.inl rfl), ih.2 fun y hy => h y (Or.inr hy)⟩

lemma cast_sumSquares (B : List Int) :
    ((sumSquares B : ℚ) : ℝ) = (B.map fun s : Int => ((s : ℝ)) ^ 2).sum := by
  rw [sumSquares_eq_map_sum]
  induction B with
  | nil => simp
  | cons x xs ih =>
    simp only [List.map_cons, List.sum_cons, Rat.cast_add]
    rw [ih]
    push_cast
    ring

/-- C4: RMS equals the square root of the mean of the squared samples, is
invariant under negating every sample, and vanishes exactly on the all-zero
block. -/
theorem calculateRMS_sqrt_mean_square_props :
    (∀ B : List Int,
        calculateRMS B
          = Real.sqrt ((B.map fun s : Int => ((s : ℝ)) ^ 2).sum / (B.length : ℝ))) ∧
    (∀ B : List Int, calculateRMS (B.map fun s => -s) = calculateRMS B) ∧
    (∀ B : List Int, calculateRMS B = 0 ↔ ∀ x ∈ B, x = 0) := by
  have hval : ∀ B : List Int,
      calculateRMS B
        = Real.sqrt ((B.map fun s : Int => ((s : ℝ)) ^ 2).sum / (B.length : ℝ)) := by
    intro B
    unfold calculateRMS
    congr 1
    push_cast [cast_sumSquares]
    ring
  refine ⟨hval, ?_, ?_⟩
  · intro B
    unfold calculateRMS
    have h1 : sumSquares (B.map fun s => -s) = sumSquares B := by
      rw [sumSquares_eq_map_sum, sumSquares_eq_map_sum, List.map_map]
      have hfun : ((fun s : Int => (s : ℚ) * (s : ℚ)) ∘ fun s : Int => -s)
          = fun s : Int => (s : ℚ) * (s : ℚ) := by
        funext s
        simp only [Function.comp_apply]
        push_cast
        ring
      rw [hfun]
    rw [h1, List.length_map]
  · intro B
    unfold calculateRMS
    have hq : (0 : ℚ) ≤ sumSquares B / (B.length : ℚ) :=
      div_nonneg (sumSquares_nonneg B) (by positivity)
    have hr : (0 : ℝ) ≤ ((sumSquares B / (B.length : ℚ) : ℚ) : ℝ) := by
      exact_mod_cast hq
    rw [Real.sqrt_eq_zero hr]
    rw [show (((sumSquares B / (B.length : ℚ)) : ℚ) : ℝ) = 0 ↔
          sumSquares B / (B.length : ℚ) = 0 from by exact_mod_cast Iff.rfl]
    cases B with
    | nil => simp [sumSquares]
    | cons x xs =>
      have hN : ((x :: xs).length : ℚ) ≠ 0 := by
        simp only [List.length_cons]
        push_cast
        positivity
      rw [div_eq_zero_iff]
      simp only [hN, or_false]
      exact sumSquares_eq_zero_iff _

lemma calculatePeak_foldl_spec (l : List Int) (a : ℚ) :
    a ≤ l.foldl (fun (peak : ℚ) (s : Int) => if |(s : ℚ)| > peak then |(s : ℚ)| else peak) a ∧
    ∀ x ∈ l,
      |(x : ℚ)| ≤ l.foldl (fun (peak : ℚ) (s : Int) => if |(s : ℚ)| > peak then |(s : ℚ)| else peak) a := by
  induction l generalizing a with
  | nil => simp
  | cons x xs ih =>
    have hstep : a ≤ (if |(x : ℚ)| > a then |(x : ℚ)| else a) ∧
        |(x : ℚ)| ≤ (if |(x : ℚ)| > a then |(x : ℚ)| else a) := by
      split
      · constructor
        · linarith [show |(x : ℚ)| > a by assumption]
        · exact le_refl _
      · constructor
        · exact le_refl _
        · linarith [not_lt.1 (by assumption : ¬ |(x : ℚ)| > a)]
    simp only [List.foldl_cons]
    refine ⟨le_trans hstep.1 (ih _).1, ?_⟩
    intro y hy
    rcases List.mem_cons.1 hy with rfl | hy'
    · exact le_trans hstep.2 (ih _).1
    · exact (ih _).2 y hy'

lemma calculatePeak_nonneg (B : List Int) : 0 ≤ calculatePeak B :=
  (calculatePeak_foldl_spec B 0).1

lemma calculatePeak_bound (B : List Int) : ∀ x ∈ B, |(x : ℚ)| ≤ calculatePeak B :=
  (calculatePeak_foldl_spec B 0).2

/-- C9: For every block B, the root-mean-square never exceeds the maximum
absolute sample value computed by the peak extractor. -/
theorem calculateRMS_le_calculatePeak (B : List Int) :
    calculateRMS B ≤ ((calculatePeak B : ℚ) : ℝ) := by
  have hpeak : (0 : ℚ) ≤ calculatePeak B := calculatePeak_nonneg B
  have hsum : sumSquares B ≤ (B.length : ℚ) * (calculatePeak B) ^ 2 := by
    rw [sumSquares_eq_map_sum]
    have hbound : ∀ q ∈ (B.map fun s : Int => (s : ℚ) * (s : ℚ)),
        q ≤ (calculatePeak B) ^ 2 := by
      intro q hq
      obtain ⟨s, hs, rfl⟩ := List.mem_map.1 hq
      have h1 : |(s : ℚ)| ≤ calculatePeak B := calculatePeak_bound B s hs
      calc (s : ℚ) * (s : ℚ) = |(s : ℚ)| * |(s : ℚ)| := (abs_mul_abs_self _).symm
        _ ≤ calculatePeak B * calculatePeak B :=
            mul_le_mul h1 h1 (abs_nonneg _) hpeak
        _ = (calculatePeak B) ^ 2 := by ring
    have := List.sum_le_card_nsmul _ _ hbound
    rwa [List.length_map, nsmul_eq_mul] at this
  have hq : sumSquares B / (B.length : ℚ) ≤ (calculatePeak B) ^ 2 := by
    cases B with
    | nil => simp [sumSquares]; positivity
    | cons x xs =>
      have hN : (0 : ℚ) < ((x :: xs).length : ℚ) := by
        simp only [List.length_cons]
        push_cast
        positivity
      rw [div_le_iff₀ hN]
      calc sumSquares (x :: xs) ≤ ((x :: xs).length : ℚ) * (calculatePeak (x :: xs)) ^ 2 :=
            hsum
        _ = (calculatePeak (x :: xs)) ^ 2 * ((x :: xs).length : ℚ) := by ring
  unfold calculateRMS
  calc Real.sqrt (((sumSquares B / (B.length : ℚ)) : ℚ) : ℝ)
      ≤ Real.sqrt ((((calculatePeak B) ^ 2 : ℚ) : ℝ)) := by
        apply Real.sqrt_le_sqrt
        exact_mod_cast hq
    _ = ((calculatePeak B : ℚ) : ℝ) := by
        push_cast
        exact Real.sqrt_sq (by exact_mod_cast hpeak)

lemma iirStep_between (prev x : Int)
    (hp1 : -32768 ≤ prev) (hp2 : prev ≤ 32767)
    (hx1 : -32768 ≤ x) (hx2 : x ≤ 32767) :
    min x prev ≤ iirStep (1 / 4) prev x ∧ iirStep (1 / 4) prev x ≤ max x prev := by
  set q : ℚ := (1 / 4) * (x : ℚ) + (1 - 1 / 4) * (prev : ℚ) with hq
  have hxq : ((min x prev : Int) : ℚ) ≤ (x : ℚ) := by
    exact_mod_cast min_le_left x prev
  have hpq : ((min x prev : Int) : ℚ) ≤ (prev : ℚ) := by
    exact_mod_cast min_le_right x prev
  have hxq' : (x : ℚ) ≤ ((max x prev : Int) : ℚ) := by
    exact_mod_cast le_max_left x prev
  have hpq' : (prev : ℚ) ≤ ((max x prev : Int) : ℚ) := by
    exact_mod_cast le_max_right x prev
  have hlo : ((min x prev : Int) : ℚ) ≤ q := by
    rw [hq]
    linarith
  have hhi : q ≤ ((max x prev : Int) : ℚ) := by
    rw [hq]
    linarith
  have htr_lo : min x prev ≤ ratTrunc q := by
    unfold ratTrunc
    split
    · exact Int.le_floor.mpr hlo
    · calc min x prev = ⌈((min x prev : Int) : ℚ)⌉ := (Int.ceil_intCast _).symm
        _ ≤ ⌈q⌉ := Int.ceil_le_ceil hlo
  have htr_hi : ratTrunc q ≤ max x prev := by
    unfold ratTrunc
    split
    · calc ⌊q⌋ ≤ ⌊((max x prev : Int) : ℚ)⌋ := Int.floor_le_floor hhi
        _ = max x prev := Int.floor_intCast _
    · exact Int.ceil_le.mpr hhi
  have hmin_lb : -32768 ≤ min x prev := le_min hx1 hp1
  have hmax_ub : max x prev ≤ 32767 := max_le hx2 hp2
  have hid : toInt16 (ratTrunc q) = ratTrunc q := by
    unfold toInt16
    omega
  show min x prev ≤ toInt16 (ratTrunc q) ∧ toInt16 (ratTrunc q) ≤ max x prev
  rw [hid]
  exact ⟨htr_lo, htr_hi⟩

lemma iirAux_between (l : List Int) (prev : Int)
    (hprev : -32768 ≤ prev ∧ prev ≤ 32767)
    (hl : ∀ x ∈ l, -32768 ≤ x ∧ x ≤ 32767) :
    (iirAux (1 / 4) prev l).length = l.length ∧
    (∀ y ∈ iirAux (1 / 4) prev l, -32768 ≤ y ∧ y ≤ 32767) ∧
    (∀ i, i < l.length →
      min (l.getD i 0) ((prev :: iirAux (1 / 4) prev l).getD i 0)
        ≤ (iirAux (1 / 4) prev l).getD i 0 ∧
      (iirAux (1 / 4) prev l).getD i 0
        ≤ max (l.getD i 0) ((prev :: iirAux (1 / 4) prev l).getD i 0)) := by
  induction l generalizing prev with
  | nil => simp [iirAux]
  | cons x rest ih =>
    have hx : -32768 ≤ x ∧ x ≤ 32767 := hl x (List.mem_cons_self x rest)
    have hrest : ∀ y ∈ rest, -32768 ≤ y ∧ y ≤ 32767 :=
      fun y hy => hl y (List.mem_cons_of_mem x hy)
    have hb := iirStep_between prev x hprev.1 hprev.2 hx.1 hx.2
    have ho : -32768 ≤ iirStep (1 / 4) prev x ∧ iirStep (1 / 4) prev x ≤ 32767 :=
      ⟨le_trans (le_min hx.1 hprev.1) hb.1, le_trans hb.2 (max_le hx.2 hprev.2)⟩
    obtain ⟨ihlen, ihmem, ihbet⟩ := ih (iirStep (1 / 4) prev x) ho hrest
    have hcons : iirAux (1 / 4) prev (x :: rest)
        = iirStep (1 / 4) prev x :: iirAux (1 / 4) (iirStep (1 / 4) prev x) rest := rfl
    refine ⟨?_, ?_, ?_⟩
    · rw [hcons]
      simp only [List.length_cons, ihlen]
    · intro y hy
      rw [hcons] at hy
      rcases List.mem_cons.1 hy with rfl | hy'
      · exact ho
      · exact ihmem y hy'
    · intro i hi
      cases i with
      | zero =>
        rw [hcons]
        simp only [List.getD_cons_zero]
        exact hb
      | succ j =>
        have hj : j < rest.length := by
          simp only [List.length_cons] at hi
          omega
        rw [hcons]
        simp only [List.getD_cons_succ]
        exact ihbet j hj

/-- C2: For every block B (of 16-bit samples), the filter with alpha = 1/4
keeps the first sample unchanged and every later output lies between the
current input sample and the previous output, inclusive — the truncating
16-bit narrowing on store never leaves that interval. -/
theorem iirLowPassFilter_seed_and_between (B : List Int)
    (hB : ∀ x ∈ B, -32768 ≤ x ∧ x ≤ 32767) :
    (iirLowPassFilter B (1 / 4)).length = B.length ∧
    (iirLowPassFilter B (1 / 4)).getD 0 0 = B.getD 0 0 ∧
    ∀ i, 1 ≤ i → i < B.length →
      min (B.getD i 0) ((iirLowPassFilter B (1 / 4)).getD (i - 1) 0)
        ≤ (iirLowPassFilter B (1 / 4)).getD i 0 ∧
      (iirLowPassFilter B (1 / 4)).getD i 0
        ≤ max (B.getD i 0) ((iirLowPassFilter B (1 / 4)).getD (i - 1) 0) := by
  match B with
  | [] => simp [iirLowPassFilter]
  | x :: rest =>
    have hx : -32768 ≤ x ∧ x ≤ 32767 := hB x (List.mem_cons_self x rest)
    have hrest : ∀ y ∈ rest, -32768 ≤ y ∧ y ≤ 32767 :=
      fun y hy => hB y (List.mem_cons_of_mem x hy)
    obtain ⟨ihlen, -, ihbet⟩ := iirAux_between rest x hx hrest
    have hcons : iirLowPassFilter (x :: rest) (1 / 4) = x :: iirAux (1 / 4) x rest := rfl
    refine ⟨?_, ?_, ?_⟩
    · rw [hcons]
      simp only [List.length_cons, ihlen]
    · rw [hcons]
      simp only [List.getD_cons_zero]
    · intro i h1 h2
      obtain ⟨j, rfl⟩ : ∃ j, i = j + 1 := ⟨i - 1, by omega⟩
      have hj : j < rest.length := by
        simp only [List.length_cons] at h2
        omega
      rw [hcons]
      simp only [Nat.add_sub_cancel, List.getD_cons_succ]
      exact ihbet j hj

/-- C2 witness on a concrete in-range block at i = 1. -/
theorem iirLowPassFilter_seed_and_between_witness :
    min (([1200, -32768, 32767, 10] : List Int).getD 1 0)
        ((iirLowPassFilter [1200, -32768, 32767, 10] (1 / 4)).getD 0 0)
      ≤ (iirLowPassFilter [1200, -32768, 32767, 10] (1 / 4)).getD 1 0 ∧
    (iirLowPassFilter [1200, -32768, 32767, 10] (1 / 4)).getD 1 0
      ≤ max (([1200, -32768, 32767, 10] : List Int).getD 1 0)
          ((iirLowPassFilter [1200, -32768, 32767, 10] (1 / 4)).getD 0 0) :=
  (iirLowPassFilter_seed_and_between [1200, -32768, 32767, 10]
    (by decide)).2.2 1 (by decide) (by decide)

lemma memsetZeroSamples_length (k : Nat) :
    ∀ (l : List Int) (s : Nat), (memsetZeroSamples l s k).length = l.length := by
  induction k with
  | zero => intro l s; rfl
  | succ k ih =>
    intro l s
    show (memsetZeroSamples (l.set s 0) (s + 1) k).length = l.length
    rw [ih]
    exact List.length_set l s 0

lemma memsetZeroSamples_getD_zero (k : Nat) :
    ∀ (l : List Int) (s i : Nat),
      l.getD i 0 = 0 → (memsetZeroSamples l s k).getD i 0 = 0 := by
  induction k with
  | zero => intro l s i h; exact h
  | succ k ih =>
    intro l s i h
    show (memsetZeroSamples (l.set s 0) (s + 1) k).getD i 0 = 0
    apply ih
    by_cases hsi : s = i
    · subst hsi
      rw [List.getD_eq_getElem?_getD, List.getElem?_set, if_pos rfl]
      by_cases hlen : s < l.length
      · simp [hlen]
      · simp [hlen]
    · rw [List.getD_eq_getElem?_getD, List.getElem?_set, if_neg hsi,
        ← List.getD_eq_getElem?_getD]
      exact h

lemma assembleBlock_length (data : List Int) (hlen : data.length ≤ BUFFER_SIZE) :
    (assembleBlock data).length = BUFFER_SIZE := by
  have hbuf : (data ++ List.replicate (BUFFER_SIZE - data.length) 0).length = BUFFER_SIZE := by
    rw [List.length_append, List.length_replicate]
    omega
  unfold assembleBlock
  split
  · rw [memsetZeroSamples_length]
    exact hbuf
  · exact hbuf

lemma assembleBlock_getD_zero (data : List Int) (i : Nat) (hge : data.length ≤ i) :
    (assembleBlock data).getD i 0 = 0 := by
  have hbase : (data ++ List.replicate (BUFFER_SIZE - data.length) 0).getD i 0 = 0 := by
    rw [List.getD_eq_getElem?_getD, List.getElem?_append_right hge,
      List.getElem?_replicate]
    by_cases h : i - data.length < BUFFER_SIZE - data.length
    · simp [h]
    · simp [h]
  unfold assembleBlock
  split
  · exact memsetZeroSamples_getD_zero _ _ _ _ hbase
  · exact hbase

/-- C5: For every successful acquisition that returned N <= BLOCK_SIZE
samples, the block handed to the filter is the full 512-sample block with
value 0 at every position at or beyond N, and the cycle computes RMS and peak
over the filtered full zero-padded block, not just the N valid samples. -/
theorem short_read_zero_padded (data : List Int) (hlen : data.length ≤ BUFFER_SIZE) :
    (assembleBlock data).length = BUFFER_SIZE ∧
    (∀ i, data.length ≤ i → (assembleBlock data).getD i 0 = 0) ∧
    ∀ (g : Globals) (connected : Bool),
      (cycleStep g ⟨ReadResult.ok data, connected⟩).1.currentRMS
          = calculateRMS (iirLowPassFilter (assembleBlock data) (1 / 4)) ∧
      (cycleStep g ⟨ReadResult.ok data, connected⟩).1.currentPeak
          = calculatePeak (iirLowPassFilter (assembleBlock data) (1 / 4)) :=
  ⟨assembleBlock_length data hlen,
   fun i hi => assembleBlock_getD_zero data i hi,
   fun _ _ => ⟨rfl, rfl⟩⟩

/-- C5 witness: a one-sample short read yields a full-length block that is
zero at position 100. -/
theorem short_read_zero_padded_witness :
    (assembleBlock [5]).length = BUFFER_SIZE ∧ (assembleBlock [5]).getD 100 0 = 0 :=
  ⟨(short_read_zero_padded [5] (by decide)).1,
   (short_read_zero_padded [5] (by decide)).2.1 100 (by decide)⟩

/-- C6: On a successful, filtered cycle with a consumer attached, exactly one
structured text frame (features, label, 256-point downsampled waveform) is
emitted followed by exactly one raw binary block, in that order; with no
consumer attached nothing is emitted, over any number of cycles. -/
theorem publish_gated_by_connection :
    (∀ (g : Globals) (data : List Int),
        (cycleStep g ⟨ReadResult.ok data, true⟩).2.1
          = [Emission.text
               (calculateRMS (iirLowPassFilter (assembleBlock data) (1 / 4)))
               (calculatePeak (iirLowPassFilter (assembleBlock data) (1 / 4)))
               (calculateFrequencyDistribution (iirLowPassFilter (assembleBlock data) (1 / 4))).1
               (calculateFrequencyDistribution (iirLowPassFilter (assembleBlock data) (1 / 4))).2
               (classifyEnvironment
                 (calculateRMS (iirLowPassFilter (assembleBlock data) (1 / 4)))
                 ((calculateFrequencyDistribution (iirLowPassFilter (assembleBlock data) (1 / 4))).1 : ℝ)
                 ((calculateFrequencyDistribution (iirLowPassFilter (assembleBlock data) (1 / 4))).2 : ℝ))
               (downsampleWaveform (iirLowPassFilter (assembleBlock data) (1 / 4))),
             Emission.bin (iirLowPassFilter (assembleBlock data) (1 / 4))]) ∧
    (∀ (g : Globals) (data : List Int),
        (cycleStep g ⟨ReadResult.ok data, false⟩).2.1 = []) ∧
    (∀ (g : Globals) (inputs : List CycleInput),
        (∀ inp ∈ inputs, inp.clientConnected = false) → (runLoop g inputs).2 = []) := by
  refine ⟨fun g data => rfl, fun g data => rfl, ?_⟩
  intro g inputs
  induction inputs generalizing g with
  | nil => intro _; rfl
  | cons inp rest ih =>
    intro hconn
    have hinp : inp.clientConnected = false := hconn inp (List.mem_cons_self inp rest)
    have hrest : ∀ j ∈ rest, j.clientConnected = false :=
      fun j hj => hconn j (List.mem_cons_of_mem inp hj)
    have hemis : (cycleStep g inp).2.1 = [] := by
      obtain ⟨read, conn⟩ := inp
      simp only at hinp
      subst hinp
      cases read with
      | ok data => rfl
      | err code => rfl
    show (cycleStep g inp).2.1 ++ (runLoop (cycleStep g inp).1 rest).2 = []
    rw [hemis, ih _ hrest]
    rfl

/-- C6 witness: two cycles with no consumer attached emit nothing. -/
theorem publish_gated_by_connection_witness :
    (runLoop initialGlobals
        [⟨ReadResult.err 255, false⟩, ⟨ReadResult.ok [7, -7], false⟩]).2 = [] :=
  publish_gated_by_connection.2.2 initialGlobals _ (by decide)
